import Mathlib

/-!
Shallow embedding of the communitybot core: the XP engine and activity
classifier (src/db/actions.py, src/cogs/xp.py) and the reminder scheduler
(src/cogs/reminders.py).  Timestamps are modelled as integer seconds (the
source stores ISO-8601 UTC strings, whose lexicographic order agrees with
time order); XP amounts are rationals; database tables are lists of rows.
-/

namespace CommunityBot

/-- Python `round` to the nearest integer, halves to the even neighbour:
with `y = n/d` in lowest terms and `d > 0`, compare the remainder doubled
against the denominator. -/
def pyRound (y : ℚ) : ℤ :=
  let d : ℤ := (y.den : ℤ)
  let q := y.num / d
  let r := y.num % d
  if 2 * r < d then q
  else if d < 2 * r then q + 1
  else if q % 2 = 0 then q else q + 1

/-- Rounding to 3 decimal places, as Python `round(x, 3)` is applied to XP
amounts throughout src/db/actions.py. -/
def round3 (x : ℚ) : ℚ := (pyRound (x * 1000) : ℚ) / 1000

/-- A row of the `users` table (src/db/schema.py). -/
structure UserRow where
  user_id : ℤ
  username : Option String
deriving DecidableEq

/-- A row of the `guilds` table (src/db/schema.py). -/
structure GuildRow where
  guild_id : ℤ
  name : Option String
deriving DecidableEq

/-- A row of the `user_private_channels` table (src/db/schema.py). -/
structure ChannelRow where
  guild_id : ℤ
  user_id : ℤ
  channel_id : ℤ
  last_journal_message : Option ℤ
deriving DecidableEq

/-- A row of the `message_logs` table, the XP ledger (src/db/schema.py). -/
structure MessageLogRow where
  guild_id : ℤ
  user_id : ℤ
  timestamp : ℤ
  xp_awarded : ℚ
deriving DecidableEq

/-- A row of the `user_xp` table, the cached rolling-total snapshot. -/
structure UserXpRow where
  guild_id : ℤ
  user_id : ℤ
  xp : ℚ
  updated_at : ℤ
deriving DecidableEq

/-- A row of the `reminders` table used by src/cogs/reminders.py. -/
structure ReminderRow where
  id : ℤ
  guild_id : ℤ
  user_id : ℤ
  channel_id : ℤ
  message_link : String
  message_preview : Option String
  remind_at : ℤ
  completed : Bool
deriving DecidableEq

/-- The whole relational store. -/
structure DB where
  users : List UserRow
  guilds : List GuildRow
  user_private_channels : List ChannelRow
  message_logs : List MessageLogRow
  user_xp : List UserXpRow
  reminders : List ReminderRow
deriving DecidableEq

/-- The empty database. -/
def DB.empty : DB := ⟨[], [], [], [], [], []⟩

/-- The select-if-missing-then-insert pattern applied to the `users` table
(src/db/actions.py, used by `can_award_xp` and `award_xp`). -/
def ensureUser (db : DB) (uid : ℤ) (username : Option String) : DB :=
  if db.users.any (fun r => r.user_id == uid) then db
  else { db with users := db.users ++ [UserRow.mk uid username] }

/-- The select-if-missing-then-insert pattern applied to the `guilds` table. -/
def ensureGuild (db : DB) (gid : ℤ) (name : Option String) : DB :=
  if db.guilds.any (fun r => r.guild_id == gid) then db
  else { db with guilds := db.guilds ++ [GuildRow.mk gid name] }

/-- src/db/actions.py `can_award_xp`: ensures the user and guild rows exist,
then reports whether no ledger entry for (guild, user) has a timestamp in the
trailing 60 seconds.  Returns the boolean together with the updated store. -/
def can_award_xp (db : DB) (guild_id user_id : ℤ) (now : ℤ) : Bool × DB :=
  let db1 := ensureUser db user_id none
  let db2 := ensureGuild db1 guild_id none
  let recent := db2.message_logs.filter (fun m =>
    m.guild_id == guild_id && m.user_id == user_id && decide (now - 60 ≤ m.timestamp))
  (recent.isEmpty, db2)

/-- src/db/actions.py `award_xp`: ensures user/guild rows, rounds the amount
to 3 decimals, appends a ledger entry, then upserts the `user_xp` snapshot.
When a snapshot row exists it is updated with the rounded sum of the ledger
entries of the pair in the trailing 3 days; otherwise a fresh row holding
only this award is inserted. -/
def award_xp (db : DB) (guild_id user_id : ℤ) (xp_amount : ℚ)
    (username guild_name : Option String) (now : ℤ) : DB :=
  let db1 := ensureUser db user_id username
  let db2 := ensureGuild db1 guild_id guild_name
  let amt := round3 xp_amount
  let db3 := { db2 with message_logs :=
    db2.message_logs ++ [MessageLogRow.mk guild_id user_id now amt] }
  if db3.user_xp.any (fun r => r.guild_id == guild_id && r.user_id == user_id) then
    let window := db3.message_logs.filter (fun m =>
      m.guild_id == guild_id && m.user_id == user_id && decide (now - 259200 ≤ m.timestamp))
    let total := round3 ((window.map (fun m => m.xp_awarded)).sum)
    { db3 with user_xp := db3.user_xp.map (fun r =>
        if r.guild_id == guild_id && r.user_id == user_id then
          { r with xp := total, updated_at := now } else r) }
  else
    { db3 with user_xp := db3.user_xp ++ [UserXpRow.mk guild_id user_id (round3 amt) now] }

/-- src/db/actions.py `get_user_xp`: sums the ledger entries of the pair in
the trailing `days` days and rounds to 3 decimals.  Reads only the ledger. -/
def get_user_xp (db : DB) (guild_id user_id : ℤ) (days : ℤ) (now : ℤ) : ℚ :=
  let window := db.message_logs.filter (fun m =>
    m.guild_id == guild_id && m.user_id == user_id && decide (now - days * 86400 ≤ m.timestamp))
  round3 ((window.map (fun m => m.xp_awarded)).sum)

/-- src/db/actions.py `get_user_channel`: the channel id recorded for the
pair, if any. -/
def get_user_channel (db : DB) (guild_id user_id : ℤ) : Option ℤ :=
  (db.user_private_channels.find? (fun r =>
    r.guild_id == guild_id && r.user_id == user_id)).map (fun r => r.channel_id)

/-- src/db/actions.py `update_last_journal_message`: stamps the personal
channel row of the pair with the current time. -/
def update_last_journal_message (db : DB) (guild_id user_id : ℤ) (now : ℤ) : DB :=
  { db with user_private_channels := db.user_private_channels.map (fun r =>
      if r.guild_id == guild_id && r.user_id == user_id then
        { r with last_journal_message := some now } else r) }

/-- src/db/actions.py `get_active_users`: the user ids of personal-channel
rows of the guild whose last-activity timestamp lies in the trailing `days`
days.  A row whose timestamp is NULL never satisfies the SQL comparison and
is excluded.  The operation only reads; it returns no updated store. -/
def get_active_users (db : DB) (guild_id : ℤ) (days : ℤ) (now : ℤ) : List ℤ :=
  (db.user_private_channels.filter (fun r =>
    r.guild_id == guild_id &&
      match r.last_journal_message with
      | some t => decide (now - days * 86400 ≤ t)
      | none => false)).map (fun r => r.user_id)

/-- An inbound chat message as seen by the XP cog (src/cogs/xp.py):
whether the author is a bot, the guild (id and name) when sent in a guild,
the author id, `str(message.author)`, the channel id and the content. -/
structure Message where
  author_bot : Bool
  guild : Option (ℤ × String)
  author_id : ℤ
  author_name : String
  channel_id : ℤ
  content : String

/-- The tail of src/cogs/xp.py `XP.on_message` (lines 53-57): when the
message was sent in the author's registered personal channel, stamp that
channel's last-journal timestamp.  A channel id of 0 is falsy in Python and
is skipped. -/
def journal_touch (db : DB) (g u : ℤ) (ch : ℤ) (now : ℤ) : DB :=
  match get_user_channel db g u with
  | some cid =>
    if cid != 0 && cid == ch then update_last_journal_message db g u now else db
  | none => db

/-- src/cogs/xp.py `XP.on_message`.  `r` is the value drawn by
`random.uniform(6, 10)` for this message; it is consumed only when the
cooldown check passes. -/
def on_message (db : DB) (msg : Message) (r : ℚ) (now : ℤ) : DB :=
  if msg.author_bot then db else
  match msg.guild with
  | none => db
  | some (g, gname) =>
    let res := can_award_xp db g msg.author_id now
    let base : ℚ := if res.1 then r else 0
    let len := msg.content.length
    let xp := base + (if 50 < len then ((len : ℚ) - 50) * (1 / 10) else 0)
    let db2 := award_xp res.2 g msg.author_id xp (some msg.author_name) (some gname) now
    journal_touch db2 g msg.author_id msg.channel_id now

/-- Modelled from the spec: `mark_reminder_completed` is imported by
src/cogs/reminders.py from the persistence layer but its definition is not
among the sources; per §4.3 it sets the completed flag of the reminder. -/
def mark_reminder_completed (db : DB) (reminder_id : ℤ) : DB :=
  { db with reminders := db.reminders.map (fun r =>
      if r.id == reminder_id then { r with completed := true } else r) }

/-- Modelled from the spec: `get_due_reminders` is imported by
src/cogs/reminders.py but its definition is not among the sources; per §4.3
it fetches all Pending reminders whose fire-at timestamp is ≤ current time. -/
def get_due_reminders (db : DB) (now : ℤ) : List ReminderRow :=
  db.reminders.filter (fun r => !r.completed && decide (r.remind_at ≤ now))

/-- Outcome of `channel.send` as the platform reports it: success, a
permission denial (`discord.Forbidden`), a transient transport or rate-limit
failure (`discord.HTTPException`), or any other exception. -/
inductive SendResult where
  | success
  | forbidden
  | httpError
  | otherError
deriving DecidableEq

/-- The platform collaborators `_send_reminder` consults: whether a guild id
resolves, whether a channel id resolves inside a guild, and what sending a
given content to a channel does. -/
structure Env where
  guildExists : ℤ → Bool
  channelExists : ℤ → ℤ → Bool
  sendOutcome : ℤ → String → SendResult

/-- The message content built by `Reminders._send_reminder`
(src/cogs/reminders.py lines 108-114): mention, optional quoted preview
(truncated to 200 characters plus an ellipsis when longer), and the link. -/
def reminder_content (r : ReminderRow) : String :=
  let content := "🔔 **Reminder** <@" ++ toString r.user_id ++ ">\n\n"
  let content :=
    match r.message_preview with
    | some p =>
      if p.length != 0 then
        content ++ "> " ++
          (if 200 < p.length then String.mk (p.data.take 200) ++ "..." else p) ++ "\n\n"
      else content
    | none => content
  content ++ "[Original message](" ++ r.message_link ++ ")"

/-- src/cogs/reminders.py `Reminders._send_reminder`: resolves the guild and
channel (marking the reminder completed and giving up when either is gone),
sends the content (marking completed on success and on a permission denial),
and leaves the store untouched on a transient or unexpected send failure.
Returns the updated store and the content actually delivered, if any. -/
def send_reminder (env : Env) (db : DB) (r : ReminderRow) : DB × Option String :=
  if !env.guildExists r.guild_id then
    (mark_reminder_completed db r.id, none)
  else if !env.channelExists r.guild_id r.channel_id then
    (mark_reminder_completed db r.id, none)
  else
    let content := reminder_content r
    match env.sendOutcome r.channel_id content with
    | .success => (mark_reminder_completed db r.id, some content)
    | .forbidden => (mark_reminder_completed db r.id, none)
    | .httpError => (db, none)
    | .otherError => (db, none)

/-- One polling cycle of `Reminders.check_reminders`: fetch the due
reminders, then attempt delivery of each in turn. -/
def check_reminders (env : Env) (db : DB) (now : ℤ) : DB :=
  (get_due_reminders db now).foldl (fun acc r => (send_reminder env acc r).1) db

/-- Seconds denoted by a unit character of `parse_time_interval`. -/
def unitSecs (c : Char) : Nat :=
  if c = 's' then 1
  else if c = 'm' then 60
  else if c = 'h' then 3600
  else if c = 'd' then 86400
  else if c = 'w' then 604800
  else 0

/-- Membership in the regex character class `[smhdw]`. -/
def isUnit (c : Char) : Bool :=
  c == 's' || c == 'm' || c == 'h' || c == 'd' || c == 'w'

/-- One left-to-right pass implementing `re.findall(r'(\d+)([smhdw])', s)`
(src/cogs/reminders.py line 19): a maximal digit run immediately followed by
a unit character yields one token; `acc` carries the value of the digit run
currently being read. -/
def scanTokens : List Char → Option Nat → List (Nat × Char)
  | [], _ => []
  | c :: cs, acc =>
    if c.isDigit then scanTokens cs (some (acc.getD 0 * 10 + (c.toNat - 48)))
    else
      match acc with
      | some v => if isUnit c then (v, c) :: scanTokens cs none else scanTokens cs none
      | none => scanTokens cs none

/-- src/cogs/reminders.py `parse_time_interval`: lowercase the input, collect
the `(\d+)([smhdw])` matches, reject when there are none, sum the token
durations, and reject a zero total.  The result is in seconds. -/
def parse_time_interval (s : String) : Option Nat :=
  let ms := scanTokens (s.data.map Char.toLower) none
  if ms.isEmpty then none
  else
    let total := (ms.map (fun p => p.1 * unitSecs p.2)).sum
    if total == 0 then none else some total

/-- Follows the specification text for interval parsing, for comparison with
`parse_time_interval`: the input must be composed of one or more
`<integer><unit>` tokens concatenated with no separators; the summed duration
is returned.  `acc` is the digit run being read, `total` the seconds of the
complete tokens so far, `seen` whether at least one token is complete. -/
def specScan : List Char → Option Nat → Nat → Bool → Option Nat
  | [], none, total, true => some total
  | [], _, _, _ => none
  | c :: cs, acc, total, seen =>
    if c.isDigit then specScan cs (some (acc.getD 0 * 10 + (c.toNat - 48))) total seen
    else
      match acc with
      | some v => if isUnit c then specScan cs none (total + v * unitSecs c) true else none
      | none => none

/-- Follows the specification text: the total duration of an input that is
composed entirely of `<integer><unit>` tokens (unit case-insensitive), and
`none` for any other input. -/
def spec_interval (s : String) : Option Nat :=
  specScan (s.data.map Char.toLower) none 0 false

/-- A `<integer><unit>` occurrence: somewhere in the input a nonempty digit
run is immediately followed by a unit character. -/
def HasTok (l : List Char) : Prop :=
  ∃ x d u y, l = x ++ d ++ u :: y ∧ d ≠ [] ∧ (∀ c ∈ d, c.isDigit = true) ∧ isUnit u = true

/-- The value `int` reads from a digit run. -/
def digitsVal (d : List Char) : Nat :=
  d.foldl (fun a c => a * 10 + (c.toNat - 48)) 0

/-- The scanner state while the digit run `d0` is pending: no state when the
run is empty, its value otherwise. -/
def accOf (d0 : List Char) : Option Nat :=
  if d0.isEmpty then none else some (digitsVal d0)

/-- Declarative description of the `re.findall` matches of an arbitrary
input: junk and token segments alternate.  A token is a nonempty digit run
immediately followed by a unit — the run maximal because the junk before it
never ends in a digit — and junk contains no occurrence at all. -/
inductive OccDecomp : List Char → List (Nat × Char) → Prop where
  | done (p : List Char) : ¬HasTok p → OccDecomp p []
  | tok (p d : List Char) (u : Char) (rest : List Char) (ts : List (Nat × Char)) :
      ¬HasTok p →
      (∀ c, p.getLast? = some c → c.isDigit = false) →
      d ≠ [] → (∀ c ∈ d, c.isDigit = true) → isUnit u = true →
      OccDecomp rest ts →
      OccDecomp (p ++ d ++ u :: rest) ((digitsVal d, u) :: ts)

/-- Python `str.strip()`: drop whitespace from both ends. -/
def pyStrip (l : List Char) : List Char :=
  ((l.dropWhile Char.isWhitespace).reverse.dropWhile Char.isWhitespace).reverse

/-- Python `str.split("/")`: the segments between the slashes, empty
segments included, one segment when no slash occurs. -/
def splitSlash (l : List Char) : List (List Char) :=
  l.foldr
    (fun c acc =>
      match acc with
      | [] => [[]]
      | seg :: rest => if c = '/' then [] :: seg :: rest else (c :: seg) :: rest)
    [[]]

/-- Digits of a Python integer literal after the first one: an underscore may
appear singly between digits, as `int("1_0") = 10`. -/
def pyDigitsRest : List Char → Nat → Option Nat
  | [], a => some a
  | '_' :: c :: cs, a =>
    if c.isDigit then pyDigitsRest cs (a * 10 + (c.toNat - 48)) else none
  | c :: cs, a =>
    if c.isDigit then pyDigitsRest cs (a * 10 + (c.toNat - 48)) else none

/-- A nonempty digit sequence with single underscores allowed inside. -/
def pyDigits : List Char → Option Nat
  | [] => none
  | c :: cs => if c.isDigit then pyDigitsRest cs (c.toNat - 48) else none

/-- Python `int(string)`: surrounding whitespace stripped, an optional sign,
then digits with single underscores allowed between them. -/
def pyInt (l : List Char) : Option ℤ :=
  match pyStrip l with
  | '+' :: rest => (pyDigits rest).map (fun n => (n : ℤ))
  | '-' :: rest => (pyDigits rest).map (fun n => -(n : ℤ))
  | rest => (pyDigits rest).map (fun n => (n : ℤ))

/-- src/cogs/reminders.py `parse_message_link`: strip the input, split on
`/`, refuse fewer than 3 segments, and read the last three segments as the
guild, channel and message ids; a segment `int` refuses makes the whole
parse refuse.  A pure function: no store is read or written. -/
def parse_message_link (link : String) : Option (ℤ × ℤ × ℤ) :=
  let parts := splitSlash (pyStrip link.data)
  if parts.length < 3 then none
  else
    match pyInt (parts.getD (parts.length - 3) []),
        pyInt (parts.getD (parts.length - 2) []),
        pyInt (parts.getD (parts.length - 1) []) with
    | some g, some c, some m => some (g, c, m)
    | _, _, _ => none

/-- Indicator-style sum of the ledger amounts of a (guild, user) pair at or
after a cutoff, used to state the rolling-window claims. -/
def ledgerSum (logs : List MessageLogRow) (g u : ℤ) (cutoff : ℤ) : ℚ :=
  (logs.map (fun m =>
    if m.guild_id = g ∧ m.user_id = u ∧ cutoff ≤ m.timestamp then m.xp_awarded else 0)).sum

/-- A store with one 5-XP ledger entry written 100000 seconds before time 0
and the matching (3-day window) snapshot of 5 XP; a 1-day query sees no
entries, so the query diverges from the snapshot. -/
def dbDiverge : DB :=
  { DB.empty with
    message_logs := [MessageLogRow.mk 1 2 (-100000) 5]
    user_xp := [UserXpRow.mk 1 2 5 (-100000)] }

/-- The store invariant the XP engine maintains: every pair with at least
one ledger entry has a snapshot row.  `award_xp` is the only ledger writer
and establishes the snapshot right after appending. -/
def XpInv (db : DB) : Prop :=
  ∀ g u : ℤ, (∃ m ∈ db.message_logs, m.guild_id = g ∧ m.user_id = u) →
    ∃ x ∈ db.user_xp, x.guild_id = g ∧ x.user_id = u

theorem ensureUser_message_logs (db : DB) (u : ℤ) (n : Option String) :
    (ensureUser db u n).message_logs = db.message_logs := by
  unfold ensureUser; split <;> rfl

theorem ensureUser_guilds (db : DB) (u : ℤ) (n : Option String) :
    (ensureUser db u n).guilds = db.guilds := by
  unfold ensureUser; split <;> rfl

theorem ensureUser_user_xp (db : DB) (u : ℤ) (n : Option String) :
    (ensureUser db u n).user_xp = db.user_xp := by
  unfold ensureUser; split <;> rfl

theorem ensureUser_channels (db : DB) (u : ℤ) (n : Option String) :
    (ensureUser db u n).user_private_channels = db.user_private_channels := by
  unfold ensureUser; split <;> rfl

theorem ensureGuild_message_logs (db : DB) (g : ℤ) (n : Option String) :
    (ensureGuild db g n).message_logs = db.message_logs := by
  unfold ensureGuild; split <;> rfl

theorem ensureGuild_users (db : DB) (g : ℤ) (n : Option String) :
    (ensureGuild db g n).users = db.users := by
  unfold ensureGuild; split <;> rfl

theorem ensureGuild_user_xp (db : DB) (g : ℤ) (n : Option String) :
    (ensureGuild db g n).user_xp = db.user_xp := by
  unfold ensureGuild; split <;> rfl

theorem ensureGuild_channels (db : DB) (g : ℤ) (n : Option String) :
    (ensureGuild db g n).user_private_channels = db.user_private_channels := by
  unfold ensureGuild; split <;> rfl

theorem specScan_scanTokens :
    ∀ (l : List Char) (acc : Option Nat) (total : Nat) (seen : Bool) (v : Nat),
      specScan l acc total seen = some v →
      v = total + ((scanTokens l acc).map (fun p => p.1 * unitSecs p.2)).sum := by
  intro l
  induction l with
  | nil =>
    intro acc total seen v h
    match acc, seen, h with
    | none, true, h =>
      rw [specScan.eq_def] at h
      simp at h
      rw [scanTokens.eq_def]
      simp [← h]
  | cons c cs ih =>
    intro acc total seen v h
    rw [specScan.eq_def] at h
    rw [scanTokens.eq_def]
    by_cases hd : c.isDigit
    · simp only [hd, if_true] at h ⊢
      exact ih _ _ _ _ h
    · simp only [hd, Bool.false_eq_true, if_false] at h ⊢
      cases acc with
      | none => simp at h
      | some w =>
        by_cases hu : isUnit c
        · simp only [hu, if_true] at h ⊢
          have hv := ih _ _ _ _ h
          simp only [List.map_cons, List.sum_cons]
          omega
        · simp [hu] at h

theorem unit_not_digit (c : Char) (h : isUnit c = true) : c.isDigit = false := by
  unfold isUnit at h
  simp only [Bool.or_eq_true, beq_iff_eq] at h
  rcases h with ((((h | h) | h) | h) | h) <;> subst h <;> rfl

theorem hasTok_append_right (a b : List Char) (h : HasTok b) : HasTok (a ++ b) := by
  obtain ⟨x, d, u, y, heq, hd, hdig, hu⟩ := h
  exact ⟨a ++ x, d, u, y, by rw [heq]; simp [List.append_assoc], hd, hdig, hu⟩

theorem noTok_of_append (a b : List Char) (h : ¬HasTok (a ++ b)) : ¬HasTok b :=
  fun hb => h (hasTok_append_right a b hb)

theorem noTok_cons (c : Char) (cs : List Char) (hc : c.isDigit = false)
    (h : ¬HasTok cs) : ¬HasTok (c :: cs) := by
  rintro ⟨x, d, u, y, heq, hd, hdig, hu⟩
  cases x with
  | nil =>
    cases d with
    | nil => exact absurd rfl hd
    | cons c0 d' =>
      simp only [List.nil_append, List.cons_append] at heq
      injection heq with h1 h2
      subst h1
      have := hdig c (by simp)
      rw [hc] at this
      exact absurd this (by simp)
  | cons c0 x' =>
    simp only [List.cons_append] at heq
    injection heq with h1 h2
    exact h ⟨x', d, u, y, h2, hd, hdig, hu⟩

theorem digits_noTok (l : List Char) (h : ∀ c ∈ l, c.isDigit = true) : ¬HasTok l := by
  rintro ⟨x, d, u, y, heq, hd, hdig, hu⟩
  have hu_mem : u ∈ l := by rw [heq]; simp
  have hud := h u hu_mem
  rw [unit_not_digit u hu] at hud
  exact absurd hud (by simp)

theorem no_tok_digit_prefix (t : List Char)
    (hhead : ∀ c₀, t.head? = some c₀ → isUnit c₀ = false)
    (ht : ¬HasTok t) :
    ∀ r : List Char, (∀ c ∈ r, c.isDigit = true) →
      ¬∃ d u y, r ++ t = d ++ u :: y ∧ (∀ c ∈ d, c.isDigit = true) ∧ isUnit u = true := by
  intro r
  induction r with
  | nil =>
    rintro _ ⟨d, u, y, heq, hdig, hu⟩
    simp only [List.nil_append] at heq
    cases d with
    | nil =>
      simp only [List.nil_append] at heq
      have := hhead u (by rw [heq]; rfl)
      rw [hu] at this
      exact absurd this (by simp)
    | cons c0 d' =>
      exact ht ⟨[], c0 :: d', u, y, by simpa using heq, by simp, hdig, hu⟩
  | cons c' r' ih =>
    rintro hr ⟨d, u, y, heq, hdig, hu⟩
    cases d with
    | nil =>
      simp only [List.cons_append, List.nil_append] at heq
      injection heq with h1 h2
      have hcd := hr c' (by simp)
      rw [h1, unit_not_digit u hu] at hcd
      exact absurd hcd (by simp)
    | cons c0 d' =>
      simp only [List.cons_append] at heq
      injection heq with h1 h2
      exact ih (fun c hc => hr c (by simp [hc]))
        ⟨d', u, y, h2, fun c hc => hdig c (by simp [hc]), hu⟩

theorem noTok_digits_append (t : List Char)
    (hhead : ∀ c₀, t.head? = some c₀ → isUnit c₀ = false)
    (ht : ¬HasTok t) :
    ∀ r : List Char, (∀ c ∈ r, c.isDigit = true) → ¬HasTok (r ++ t) := by
  intro r
  induction r with
  | nil => intro _; simpa using ht
  | cons c' r' ih =>
    intro hr
    rintro ⟨x, d, u, y, heq, hd, hdig, hu⟩
    cases x with
    | nil =>
      simp only [List.nil_append] at heq
      exact no_tok_digit_prefix t hhead ht (c' :: r') hr ⟨d, u, y, heq, hdig, hu⟩
    | cons c0 x' =>
      simp only [List.cons_append] at heq
      injection heq with h1 h2
      exact ih (fun c hc => hr c (by simp [hc])) ⟨x', d, u, y, h2, hd, hdig, hu⟩

theorem digitsVal_append (d : List Char) (c : Char) :
    digitsVal (d ++ [c]) = digitsVal d * 10 + (c.toNat - 48) := by
  unfold digitsVal
  rw [List.foldl_append]
  rfl

theorem accOf_append_getD (d0 : List Char) (c : Char) :
    some ((accOf d0).getD 0 * 10 + (c.toNat - 48)) = accOf (d0 ++ [c]) := by
  cases d0 with
  | nil =>
    unfold accOf
    simp [digitsVal]
  | cons c0 d' =>
    unfold accOf
    rw [if_neg (by simp), if_neg (by simp)]
    simp only [Option.getD_some, Option.some_inj]
    rw [digitsVal_append (c0 :: d') c]

theorem occDecomp_cons (c : Char) (t : List Char) (ts : List (Nat × Char))
    (hc : c.isDigit = false) (h : OccDecomp t ts) : OccDecomp (c :: t) ts := by
  cases h with
  | done p hp => exact OccDecomp.done (c :: t) (noTok_cons c t hc hp)
  | tok p d u rest ts2 hp hb hd hdig hu hrest =>
    have : c :: (p ++ d ++ u :: rest) = (c :: p) ++ d ++ u :: rest := by simp
    rw [this]
    refine OccDecomp.tok (c :: p) d u rest ts2 (noTok_cons c p hc hp) ?_ hd hdig hu hrest
    intro c' hc'
    cases p with
    | nil =>
      simp only [List.getLast?_singleton] at hc'
      injection hc' with h1
      rw [← h1]
      exact hc
    | cons p0 p' =>
      rw [List.getLast?_cons_cons] at hc'
      exact hb c' hc'

theorem occDecomp_digits_prepend (t : List Char) (ts : List (Nat × Char))
    (hhead : ∀ c₀, t.head? = some c₀ → c₀.isDigit = false ∧ isUnit c₀ = false)
    (h : OccDecomp t ts) :
    ∀ r : List Char, (∀ c ∈ r, c.isDigit = true) → OccDecomp (r ++ t) ts := by
  intro r hr
  cases h with
  | done p hp =>
    exact OccDecomp.done (r ++ t)
      (noTok_digits_append t (fun c₀ h₀ => (hhead c₀ h₀).2) hp r hr)
  | tok p d u rest ts2 hp hb hd hdig hu hrest =>
    cases p with
    | nil =>
      -- head of t is the head of d, a digit: contradicts hhead
      exfalso
      cases d with
      | nil => exact absurd rfl hd
      | cons d0 d' =>
        have h0 : ((([] : List Char) ++ (d0 :: d') ++ u :: rest)).head? = some d0 := rfl
        have := (hhead d0 h0).1
        rw [hdig d0 (by simp)] at this
        exact absurd this (by simp)
    | cons p0 p' =>
      have hre : r ++ ((p0 :: p') ++ d ++ u :: rest) = (r ++ p0 :: p') ++ d ++ u :: rest := by
        simp
      rw [hre]
      refine OccDecomp.tok (r ++ p0 :: p') d u rest ts2 ?_ ?_ hd hdig hu hrest
      · refine noTok_digits_append (p0 :: p') ?_ hp r hr
        intro c₀ h₀
        injection h₀ with h1
        have := hhead p0 rfl
        rw [← h1]
        exact this.2
      · intro c' hc'
        rw [List.getLast?_append] at hc'
        cases hgl : (p0 :: p').getLast? with
        | none =>
          rw [List.getLast?_eq_none_iff] at hgl
          exact absurd hgl (by simp)
        | some cl =>
          rw [hgl] at hc'
          simp only [Option.or] at hc'
          injection hc' with h1
          rw [← h1]
          exact hb cl hgl


theorem lastNotDigit_tail (x : Char) (xs : List Char)
    (h : ∀ c, (x :: xs).getLast? = some c → c.isDigit = false) :
    ∀ c, xs.getLast? = some c → c.isDigit = false := by
  intro c hc
  cases xs with
  | nil => simp at hc
  | cons y ys =>
    apply h
    rw [List.getLast?_cons_cons]
    exact hc

theorem lastNotDigit_append_elim (a b : List Char)
    (h : ∀ c, (a ++ b).getLast? = some c → c.isDigit = false) :
    ∀ c, b.getLast? = some c → c.isDigit = false := by
  intro c hc
  apply h
  rw [List.getLast?_append, hc]
  rfl

theorem digits_lastNotDigit_nil (l : List Char)
    (hdig : ∀ c ∈ l, c.isDigit = true)
    (hb : ∀ c, l.getLast? = some c → c.isDigit = false) : l = [] := by
  cases l with
  | nil => rfl
  | cons x xs =>
    exfalso
    have hne : (x :: xs) ≠ [] := by simp
    have h1 := hb ((x :: xs).getLast hne) (List.getLast?_eq_getLast _ hne)
    have h2 := hdig ((x :: xs).getLast hne) (List.getLast_mem hne)
    rw [h2] at h1
    exact absurd h1 (by simp)

theorem scanTokens_digits :
    ∀ (d : List Char) (d0 : List Char) (t : List Char),
      (∀ c ∈ d, c.isDigit = true) → (∀ c ∈ d0, c.isDigit = true) →
      scanTokens (d ++ t) (accOf d0) = scanTokens t (accOf (d0 ++ d)) := by
  intro d
  induction d with
  | nil =>
    intro d0 t _ _
    rw [List.nil_append, List.append_nil]
  | cons c d' ih =>
    intro d0 t hd hd0
    rw [List.cons_append, scanTokens.eq_def]
    simp only [hd c (by simp), if_true]
    rw [accOf_append_getD]
    rw [ih (d0 ++ [c]) t (fun x hx => hd x (by simp [hx]))
      (by
        intro x hx
        rcases List.mem_append.1 hx with hx | hx
        · exact hd0 x hx
        · simp only [List.mem_singleton] at hx
          subst hx
          exact hd x (by simp))]
    rw [List.append_assoc]
    rfl

theorem scan_junk_nil :
    ∀ (l : List Char) (d0 : List Char),
      (∀ c ∈ d0, c.isDigit = true) → ¬HasTok (d0 ++ l) →
      scanTokens l (accOf d0) = [] := by
  intro l
  induction l with
  | nil => intro d0 _ _; rfl
  | cons c cs ih =>
    intro d0 hd0 hnt
    rw [scanTokens.eq_def]
    by_cases hc : c.isDigit = true
    · simp only [hc, if_true]
      rw [accOf_append_getD]
      refine ih (d0 ++ [c]) ?_ ?_
      · intro x hx
        rcases List.mem_append.1 hx with hx | hx
        · exact hd0 x hx
        · simp only [List.mem_singleton] at hx
          subst hx
          exact hc
      · rw [List.append_assoc]
        simpa using hnt
    · simp only [hc, Bool.false_eq_true, if_false]
      cases hd0e : d0 with
      | nil =>
        subst hd0e
        simp only [accOf, List.isEmpty_nil, if_true]
        exact ih [] (by simp) (noTok_of_append [c] cs (by simpa using hnt))
      | cons e d0' =>
        have hacc : accOf (e :: d0') = some (digitsVal (e :: d0')) := by
          unfold accOf
          rw [if_neg (by simp)]
        rw [hd0e] at hd0 hnt
        rw [hacc]
        dsimp only
        by_cases hu : isUnit c = true
        · exact absurd (⟨[], e :: d0', c, cs, by simp, by simp, hd0, hu⟩ : HasTok ((e :: d0') ++ c :: cs)) hnt
        · rw [if_neg hu]
          refine ih [] (by simp) ?_
          have hsp : (e :: d0') ++ c :: cs = ((e :: d0') ++ [c]) ++ cs := by simp
          rw [hsp] at hnt
          exact noTok_of_append _ _ hnt

theorem scan_junk_skip :
    ∀ (p : List Char) (d0 : List Char) (t : List Char),
      (∀ c ∈ d0, c.isDigit = true) → ¬HasTok (d0 ++ p) →
      (∀ c, (d0 ++ p).getLast? = some c → c.isDigit = false) →
      scanTokens (p ++ t) (accOf d0) = scanTokens t none := by
  intro p
  induction p with
  | nil =>
    intro d0 t hd0 _ hb
    rw [List.append_nil] at hb
    rw [digits_lastNotDigit_nil d0 hd0 hb]
    rw [List.nil_append]
    rfl
  | cons c cs ih =>
    intro d0 t hd0 hnt hb
    rw [List.cons_append, scanTokens.eq_def]
    by_cases hc : c.isDigit = true
    · simp only [hc, if_true]
      rw [accOf_append_getD]
      refine ih (d0 ++ [c]) t ?_ ?_ ?_
      · intro x hx
        rcases List.mem_append.1 hx with hx | hx
        · exact hd0 x hx
        · simp only [List.mem_singleton] at hx
          subst hx
          exact hc
      · rw [List.append_assoc]
        simpa using hnt
      · rw [List.append_assoc]
        simpa using hb
    · simp only [hc, Bool.false_eq_true, if_false]
      cases hd0e : d0 with
      | nil =>
        subst hd0e
        simp only [accOf, List.isEmpty_nil, if_true]
        refine ih [] t (by simp) (noTok_of_append [c] cs (by simpa using hnt)) ?_
        simp only [List.nil_append]
        simp only [List.nil_append] at hb
        exact lastNotDigit_tail c cs hb
      | cons e d0' =>
        have hacc : accOf (e :: d0') = some (digitsVal (e :: d0')) := by
          unfold accOf
          rw [if_neg (by simp)]
        rw [hd0e] at hd0 hnt hb
        rw [hacc]
        dsimp only
        by_cases hu : isUnit c = true
        · exact absurd
            (⟨[], e :: d0', c, cs, by simp, by simp, hd0, hu⟩ :
              HasTok ((e :: d0') ++ c :: cs)) hnt
        · rw [if_neg hu]
          refine ih [] t (by simp) ?_ ?_
          · have hsp : (e :: d0') ++ c :: cs = ((e :: d0') ++ [c]) ++ cs := by simp
            rw [hsp] at hnt
            exact noTok_of_append _ _ hnt
          · simp only [List.nil_append]
            exact lastNotDigit_tail c cs (lastNotDigit_append_elim (e :: d0') (c :: cs) hb)

theorem occDecomp_scan (l : List Char) (ts : List (Nat × Char)) (h : OccDecomp l ts) :
    scanTokens l none = ts := by
  induction h with
  | done p hp =>
    have h0 := scan_junk_nil p [] (by simp) (by simpa using hp)
    simpa [accOf] using h0
  | tok p d u rest ts2 hp hb hd hdig hu hrest ih =>
    have h1 := scan_junk_skip p [] (d ++ u :: rest) (by simp) (by simpa using hp)
      (by simpa using hb)
    have h2 := scanTokens_digits d [] (u :: rest) hdig (by simp)
    have hacc : accOf d = some (digitsVal d) := by
      unfold accOf
      rw [if_neg (by simpa using hd)]
    have h3 : scanTokens (u :: rest) (some (digitsVal d)) =
        (digitsVal d, u) :: scanTokens rest none := by
      rw [scanTokens.eq_def]
      simp only [unit_not_digit u hu, Bool.false_eq_true, if_false]
      rw [if_pos hu]
    have haccnil : accOf ([] : List Char) = none := rfl
    rw [haccnil] at h1 h2
    simp only [List.nil_append] at h2
    calc scanTokens (p ++ d ++ u :: rest) none
        = scanTokens (p ++ (d ++ u :: rest)) none := by rw [List.append_assoc]
      _ = scanTokens (d ++ u :: rest) none := h1
      _ = scanTokens (u :: rest) (accOf d) := h2
      _ = (digitsVal d, u) :: scanTokens rest none := by rw [hacc, h3]
      _ = (digitsVal d, u) :: ts2 := by rw [ih]

theorem scan_occDecomp :
    ∀ (l : List Char) (d0 : List Char), (∀ c ∈ d0, c.isDigit = true) →
      OccDecomp (d0 ++ l) (scanTokens l (accOf d0)) := by
  intro l
  induction l with
  | nil =>
    intro d0 hd0
    rw [scanTokens.eq_def]
    exact OccDecomp.done (d0 ++ []) (by rw [List.append_nil]; exact digits_noTok d0 hd0)
  | cons c cs ih =>
    intro d0 hd0
    rw [scanTokens.eq_def]
    by_cases hc : c.isDigit = true
    · simp only [hc, if_true]
      rw [accOf_append_getD]
      have h1 := ih (d0 ++ [c]) (by
        intro x hx
        rcases List.mem_append.1 hx with hx | hx
        · exact hd0 x hx
        · simp only [List.mem_singleton] at hx
          subst hx
          exact hc)
      rw [List.append_assoc] at h1
      simpa using h1
    · simp only [hc, Bool.false_eq_true, if_false]
      have hrest : OccDecomp cs (scanTokens cs none) := by
        have := ih [] (by simp)
        simpa [accOf] using this
      cases hd0e : d0 with
      | nil =>
        subst hd0e
        simp only [accOf, List.isEmpty_nil, if_true]
        rw [List.nil_append]
        exact occDecomp_cons c cs _ (by simpa using hc) hrest
      | cons e d0' =>
        rw [hd0e] at hd0
        have hacc : accOf (e :: d0') = some (digitsVal (e :: d0')) := by
          unfold accOf
          rw [if_neg (by simp)]
        rw [hacc]
        dsimp only
        by_cases hu : isUnit c = true
        · rw [if_pos hu]
          have := OccDecomp.tok [] (e :: d0') c cs (scanTokens cs none)
            (digits_noTok [] (by simp)) (by intro x hx; simp at hx)
            (by simp) hd0 hu hrest
          simpa using this
        · rw [if_neg hu]
          have hcons := occDecomp_cons c cs _ (by simpa using hc) hrest
          refine occDecomp_digits_prepend (c :: cs) _ ?_ hcons (e :: d0') hd0
          intro c₀ h₀
          injection h₀ with h1
          subst h1
          exact ⟨by simpa using hc, by simpa using hu⟩

theorem scan_occ (l : List Char) : OccDecomp l (scanTokens l none) := by
  have := scan_occDecomp l [] (by simp)
  simpa [accOf] using this

/-- C6, counterexample: the claim says parsing succeeds only when the whole
input is composed of `<integer><unit>` tokens, but `"x1h"` is not so composed
(per the specification-text acceptor `spec_interval`) and the code still
parses it to 3600 seconds, because `re.findall` matches tokens anywhere. -/
theorem interval_claim_counterexample :
    parse_time_interval "x1h" = some 3600 ∧ spec_interval "x1h" = none := by
  constructor <;> rfl

/-- C6, amended: over every input, parsing succeeds with value `v` exactly
when `v` is nonzero and the lowercased input decomposes into alternating
junk and `<integer><unit>` token segments (`OccDecomp`) with at least one
token, `v` being the summed duration of all tokens — full token composition
is not required, and multiple same-unit tokens are additive.  In particular
`"1h30m"` is 5400 s, `"2d"` is 172800 s, `"abc"` and `"0s"` are rejected,
`"x1h"` is accepted as 3600 s, `"1hx2s"` as 3602 s, and `"x0s"` is
rejected (zero total). -/
theorem interval_amended :
    (∀ (s : String) (v : Nat),
      parse_time_interval s = some v ↔
        v ≠ 0 ∧ ∃ ts, ts ≠ [] ∧ OccDecomp (s.data.map Char.toLower) ts ∧
          v = (ts.map (fun q => q.1 * unitSecs q.2)).sum)
  ∧ parse_time_interval "1h30m" = some 5400
  ∧ parse_time_interval "2d" = some 172800
  ∧ parse_time_interval "abc" = none
  ∧ parse_time_interval "0s" = none
  ∧ parse_time_interval "x1h" = some 3600
  ∧ parse_time_interval "1hx2s" = some 3602
  ∧ parse_time_interval "x0s" = none := by
  refine ⟨?_, rfl, rfl, rfl, rfl, rfl, rfl, rfl⟩
  intro s v
  unfold parse_time_interval
  constructor
  · intro h
    by_cases he : (scanTokens (s.data.map Char.toLower) none).isEmpty
    · rw [if_pos he] at h
      exact absurd h (by simp)
    · rw [if_neg he] at h
      by_cases hz : ((scanTokens (s.data.map Char.toLower) none).map
          (fun p => p.1 * unitSecs p.2)).sum = 0
      · rw [if_pos (by simpa using hz)] at h
        exact absurd h (by simp)
      · rw [if_neg (by simpa using hz)] at h
        simp only [Option.some_inj] at h
        refine ⟨by rw [← h]; exact hz, scanTokens (s.data.map Char.toLower) none,
          by simpa [List.isEmpty_iff] using he, scan_occ _, h.symm⟩
  · rintro ⟨hv, ts, hne, hdec, hsum⟩
    have hms : scanTokens (s.data.map Char.toLower) none = ts := occDecomp_scan _ _ hdec
    rw [hms]
    rw [if_neg (by simpa [List.isEmpty_iff] using hne)]
    rw [if_neg (by simpa using fun h0 => hv (hsum.trans h0))]
    rw [← hsum]

/-- C6, witness: the additive same-unit input `"1h1h"` decomposes into two
`1h` tokens summing to 7200 seconds, so the amended equivalence applies. -/
theorem interval_amended_witness : parse_time_interval "1h1h" = some 7200 := by
  refine (interval_amended.1 "1h1h" 7200).mpr
    ⟨by norm_num, [(1, 'h'), (1, 'h')], by simp, ?_, by decide⟩
  have h0 : OccDecomp ([] : List Char) [] := OccDecomp.done [] (digits_noTok [] (by simp))
  have h1 : OccDecomp ['1', 'h'] [(1, 'h')] := by
    have := OccDecomp.tok [] ['1'] 'h' [] [] (digits_noTok [] (by simp))
      (by intro x hx; simp at hx) (by simp) (by decide) (by decide) h0
    exact this
  have h2 := OccDecomp.tok [] ['1'] 'h' ['1', 'h'] [(1, 'h')] (digits_noTok [] (by simp))
    (by intro x hx; simp at hx) (by simp) (by decide) (by decide) h1
  exact h2

/-- C7: message-reference parsing returns `some (guild, channel, message)`
precisely when the stripped, slash-split input has at least three segments
whose last three are each accepted by Python `int`, the ids being read from
the third-last, second-last and last segment respectively; with fewer than
three segments it returns `none`.  The function is pure: it takes no store
and returns none, so no state is mutated either way. -/
theorem message_link_spec :
    ∀ s : String,
      (∀ g c m : ℤ,
        parse_message_link s = some (g, c, m) ↔
          ∃ sm sc sg rest, (splitSlash (pyStrip s.data)).reverse = sm :: sc :: sg :: rest ∧
            pyInt sg = some g ∧ pyInt sc = some c ∧ pyInt sm = some m)
      ∧ ((splitSlash (pyStrip s.data)).length < 3 → parse_message_link s = none) := by
  intro s
  unfold parse_message_link
  by_cases hlen : (splitSlash (pyStrip s.data)).length < 3
  · refine ⟨?_, fun _ => by simp [hlen]⟩
    intro g c m
    simp only [hlen, if_true]
    constructor
    · intro h; exact absurd h (by simp)
    · rintro ⟨sm, sc, sg, rest, hrev, -⟩
      have h' := congrArg List.length hrev
      simp only [List.length_reverse, List.length_cons] at h'
      omega
  · refine ⟨?_, fun h => absurd h hlen⟩
    intro g c m
    have h3 : 3 ≤ (splitSlash (pyStrip s.data)).length := by omega
    match hrev : (splitSlash (pyStrip s.data)).reverse with
    | [] =>
      exfalso
      have h' := congrArg List.length hrev
      simp only [List.length_reverse, List.length_nil] at h'
      omega
    | [a] =>
      exfalso
      have h' := congrArg List.length hrev
      simp only [List.length_reverse, List.length_cons, List.length_nil] at h'
      omega
    | [a, b] =>
      exfalso
      have h' := congrArg List.length hrev
      simp only [List.length_reverse, List.length_cons, List.length_nil] at h'
      omega
    | a :: b :: c' :: rest =>
      have hps : splitSlash (pyStrip s.data) = rest.reverse ++ [c', b, a] := by
        have h' := congrArg List.reverse hrev
        simpa using h'
      have hl : (splitSlash (pyStrip s.data)).length = rest.length + 3 := by
        have h' := congrArg List.length hrev
        simp only [List.length_reverse, List.length_cons] at h'
        omega
      have e1 :
          (splitSlash (pyStrip s.data)).getD ((splitSlash (pyStrip s.data)).length - 3) [] = c' := by
        rw [hl, hps]
        rw [List.getD_append_right]
        · simp
        · simp
      have e2 :
          (splitSlash (pyStrip s.data)).getD ((splitSlash (pyStrip s.data)).length - 2) [] = b := by
        rw [hl, hps]
        rw [List.getD_append_right]
        · simp
        · simp
      have e3 :
          (splitSlash (pyStrip s.data)).getD ((splitSlash (pyStrip s.data)).length - 1) [] = a := by
        rw [hl, hps]
        rw [List.getD_append_right]
        · simp
        · simp
      simp only [hlen, if_false, e1, e2, e3]
      constructor
      · intro h
        match h1 : pyInt c', h2 : pyInt b, h3' : pyInt a, h with
        | some g', some c'', some m'', h =>
          simp only [h1, h2, h3', Option.some_inj, Prod.mk.injEq] at h
          obtain ⟨rfl, rfl, rfl⟩ := h
          exact ⟨a, b, c', rest, rfl, h1, h2, h3'⟩
      · rintro ⟨sm, sc, sg, rest', hrev', hg, hc, hm⟩
        simp only [List.cons.injEq] at hrev'
        obtain ⟨rfl, rfl, rfl, rfl⟩ := hrev'
        simp [hg, hc, hm]

/-- C7, witness: the two examples of the specification, a 2-segment input
refused and a full message link accepted. -/
theorem message_link_spec_witness :
    parse_message_link "222/333" = none ∧
    parse_message_link "https://discord.com/channels/111/222/333" = some (111, 222, 333) := by
  constructor
  · exact (message_link_spec "222/333").2 (by decide)
  · exact ((message_link_spec "https://discord.com/channels/111/222/333").1 111 222 333).mpr
      ⟨"333".data, "222".data, "111".data, ["channels".data, "discord.com".data, [], "https:".data],
        by rfl, by rfl, by rfl, by rfl⟩

theorem round3_zero : round3 0 = 0 := by
  norm_num [round3, pyRound]

theorem pyRound_intCast (k : ℤ) : pyRound ((k : ℚ)) = k := by
  simp [pyRound, Rat.num_intCast, Rat.den_intCast]

theorem round3_idem (x : ℚ) : round3 (round3 x) = round3 x := by
  unfold round3
  rw [div_mul_cancel₀]
  · rw [pyRound_intCast]
  · norm_num

theorem can_award_xp_snd (db : DB) (g u now : ℤ) :
    (can_award_xp db g u now).2 = ensureGuild (ensureUser db u none) g none := rfl

theorem can_award_xp_fst (db : DB) (g u now : ℤ) :
    (can_award_xp db g u now).1 = true ↔
      ¬ ∃ m ∈ db.message_logs, m.guild_id = g ∧ m.user_id = u ∧ now - 60 ≤ m.timestamp := by
  simp only [can_award_xp, List.isEmpty_iff, List.filter_eq_nil_iff]
  rw [ensureGuild_message_logs, ensureUser_message_logs]
  constructor
  · rintro h ⟨m, hm, h1, h2, h3⟩
    exact h m hm (by simp [h1, h2, h3])
  · intro h m hm hp
    simp only [Bool.and_eq_true, beq_iff_eq, decide_eq_true_eq] at hp
    exact h ⟨m, hm, hp.1.1, hp.1.2, hp.2⟩

theorem award_xp_message_logs (db : DB) (g u : ℤ) (a : ℚ) (un gn : Option String) (now : ℤ) :
    (award_xp db g u a un gn now).message_logs =
      db.message_logs ++ [MessageLogRow.mk g u now (round3 a)] := by
  unfold award_xp
  dsimp only
  split <;> simp [ensureUser_message_logs, ensureGuild_message_logs]

theorem journal_touch_logs (db : DB) (g u ch now : ℤ) :
    (journal_touch db g u ch now).message_logs = db.message_logs := by
  unfold journal_touch
  cases get_user_channel db g u with
  | none => rfl
  | some cid =>
    dsimp only
    split <;> rfl

theorem on_message_logs (db : DB) (msg : Message) (g : ℤ) (gname : String) (r : ℚ) (now : ℤ)
    (hbot : msg.author_bot = false) (hg : msg.guild = some (g, gname)) :
    (on_message db msg r now).message_logs =
      db.message_logs ++ [MessageLogRow.mk g msg.author_id now (round3
        ((if ∃ m ∈ db.message_logs,
              m.guild_id = g ∧ m.user_id = msg.author_id ∧ now - 60 ≤ m.timestamp
            then 0 else r) +
          (if 50 < msg.content.length then ((msg.content.length : ℚ) - 50) * (1 / 10) else 0)))] := by
  unfold on_message
  rw [hbot, hg]
  dsimp only
  have hbase :
      (if (can_award_xp db g msg.author_id now).1 = true then r else 0) =
        (if ∃ m ∈ db.message_logs,
            m.guild_id = g ∧ m.user_id = msg.author_id ∧ now - 60 ≤ m.timestamp
          then 0 else r) := by
    by_cases hc : ∃ m ∈ db.message_logs,
        m.guild_id = g ∧ m.user_id = msg.author_id ∧ now - 60 ≤ m.timestamp
    · cases hfst : (can_award_xp db g msg.author_id now).1 with
      | true => exact absurd ((can_award_xp_fst db g msg.author_id now).1 hfst) (not_not_intro hc)
      | false =>
        rw [if_neg (by simp), if_pos hc]
    · rw [if_pos ((can_award_xp_fst db g msg.author_id now).2 hc), if_neg hc]
  have hlogs : ((can_award_xp db g msg.author_id now).2).message_logs = db.message_logs := by
    rw [can_award_xp_snd, ensureGuild_message_logs, ensureUser_message_logs]
  simp only [Bool.false_eq_true, if_false]
  rw [journal_touch_logs, award_xp_message_logs, hlogs, hbase]

/-- C1: a non-bot message in a guild appends exactly one ledger entry whose
stored amount is the base plus the length bonus, rounded to 3 decimals: the
base is the uniform draw `r` (whose claimed range [6, 10) is taken as a
hypothesis; the distribution itself is outside the embedding) when no ledger
entry of this (guild, user) lies in the trailing 60 seconds and 0 otherwise,
and the bonus is 0.1 per content character beyond the first 50, regardless
of cooldown state. -/
theorem xp_award_amount (db : DB) (msg : Message) (g : ℤ) (gname : String) (r : ℚ) (now : ℤ)
    (hbot : msg.author_bot = false) (hg : msg.guild = some (g, gname))
    (hr6 : 6 ≤ r) (hr10 : r < 10) :
    (on_message db msg r now).message_logs =
      db.message_logs ++ [MessageLogRow.mk g msg.author_id now (round3
        ((if ∃ m ∈ db.message_logs,
              m.guild_id = g ∧ m.user_id = msg.author_id ∧ now - 60 ≤ m.timestamp
            then 0 else r) +
          (if 50 < msg.content.length then ((msg.content.length : ℚ) - 50) * (1 / 10) else 0)))] :=
  on_message_logs db msg g gname r now hbot hg

/-- C1, witness: a first-ever message of user 2 in guild 1 with short
content and draw 7; no cooldown entry exists, so the stored amount is
`round3 (7 + 0)`. -/
theorem xp_award_amount_witness :
    (on_message DB.empty (Message.mk false (some (1, "g")) 2 "u" 3 "hello") 7 0).message_logs =
      DB.empty.message_logs ++ [MessageLogRow.mk 1 2 0 (round3
        ((if ∃ m ∈ DB.empty.message_logs,
              m.guild_id = 1 ∧ m.user_id = 2 ∧ (0 : ℤ) - 60 ≤ m.timestamp
            then 0 else 7) +
          (if 50 < (Message.mk false (some ((1 : ℤ), "g")) 2 "u" 3 "hello").content.length then
            (((Message.mk false (some ((1 : ℤ), "g")) 2 "u" 3 "hello").content.length : ℚ) - 50)
              * (1 / 10)
          else 0)))] :=
  xp_award_amount DB.empty (Message.mk false (some (1, "g")) 2 "u" 3 "hello") 1 "g" 7 0
    rfl rfl (by norm_num) (by norm_num)

/-- C3: every non-bot guild message appends exactly one new ledger entry for
the (guild, author) pair carrying the computed award amount — including when
that amount is exactly 0. -/
theorem xp_ledger_append (db : DB) (msg : Message) (g : ℤ) (gname : String) (r : ℚ) (now : ℤ)
    (hbot : msg.author_bot = false) (hg : msg.guild = some (g, gname)) :
    (on_message db msg r now).message_logs.length = db.message_logs.length + 1 ∧
    ∃ e : MessageLogRow, (on_message db msg r now).message_logs = db.message_logs ++ [e] ∧
      e.guild_id = g ∧ e.user_id = msg.author_id ∧ e.timestamp = now ∧
      e.xp_awarded = round3
        ((if ∃ m ∈ db.message_logs,
              m.guild_id = g ∧ m.user_id = msg.author_id ∧ now - 60 ≤ m.timestamp
            then 0 else r) +
          (if 50 < msg.content.length then ((msg.content.length : ℚ) - 50) * (1 / 10) else 0)) := by
  have h := on_message_logs db msg g gname r now hbot hg
  constructor
  · rw [h]
    simp
  · exact ⟨_, h, rfl, rfl, rfl, rfl⟩

/-- C3, witness: user 2 already has a ledger entry 30 seconds old, and the
content is short, so the computed award is `round3 (0 + 0) = 0`; the entry
is still appended. -/
theorem xp_ledger_append_witness :
    ((on_message (DB.mk [] [] [] [MessageLogRow.mk 1 2 0 5] [] [])
        (Message.mk false (some (1, "g")) 2 "u" 3 "hi") 7 30).message_logs.length =
      (DB.mk [] [] [] [MessageLogRow.mk 1 2 0 5] [] []).message_logs.length + 1) ∧
    ∃ e : MessageLogRow,
      (on_message (DB.mk [] [] [] [MessageLogRow.mk 1 2 0 5] [] [])
          (Message.mk false (some (1, "g")) 2 "u" 3 "hi") 7 30).message_logs =
        (DB.mk [] [] [] [MessageLogRow.mk 1 2 0 5] [] []).message_logs ++ [e] ∧
      e.guild_id = 1 ∧ e.user_id = 2 ∧ e.timestamp = 30 ∧
      e.xp_awarded = round3
        ((if ∃ m ∈ (DB.mk [] [] [] [MessageLogRow.mk 1 2 0 5] [] []).message_logs,
              m.guild_id = 1 ∧ m.user_id = 2 ∧ (30 : ℤ) - 60 ≤ m.timestamp
            then 0 else 7) +
          (if 50 < (Message.mk false (some ((1 : ℤ), "g")) 2 "u" 3 "hi").content.length then
            (((Message.mk false (some ((1 : ℤ), "g")) 2 "u" 3 "hi").content.length : ℚ) - 50)
              * (1 / 10)
          else 0)) :=
  xp_ledger_append (DB.mk [] [] [] [MessageLogRow.mk 1 2 0 5] [] [])
    (Message.mk false (some (1, "g")) 2 "u" 3 "hi") 1 "g" 7 30 rfl rfl

theorem filter_sum_eq_ledgerSum (logs : List MessageLogRow) (g u c : ℤ) :
    ((logs.filter (fun m => m.guild_id == g && m.user_id == u && decide (c ≤ m.timestamp))).map
      (fun m => m.xp_awarded)).sum = ledgerSum logs g u c := by
  induction logs with
  | nil => rfl
  | cons m ms ih =>
    unfold ledgerSum at ih ⊢
    by_cases hm : m.guild_id = g ∧ m.user_id = u ∧ c ≤ m.timestamp
    · rw [List.filter_cons_of_pos (by simp [hm.1, hm.2.1, hm.2.2])]
      simp only [List.map_cons, List.sum_cons, if_pos hm, ih]
    · rw [List.filter_cons_of_neg (by simpa using hm)]
      simp only [List.map_cons, List.sum_cons, if_neg hm, ih, zero_add]

theorem ledgerSum_append (l1 l2 : List MessageLogRow) (g u c : ℤ) :
    ledgerSum (l1 ++ l2) g u c = ledgerSum l1 g u c + ledgerSum l2 g u c := by
  unfold ledgerSum
  rw [List.map_append, List.sum_append]

theorem ledgerSum_eq_zero (l : List MessageLogRow) (g u c : ℤ)
    (h : ∀ m ∈ l, ¬(m.guild_id = g ∧ m.user_id = u)) :
    ledgerSum l g u c = 0 := by
  unfold ledgerSum
  induction l with
  | nil => rfl
  | cons m ms ih =>
    simp only [List.map_cons, List.sum_cons]
    rw [if_neg (fun hc => h m (by simp) ⟨hc.1, hc.2.1⟩), zero_add]
    exact ih (fun x hx => h x (by simp [hx]))

theorem award_xp_snapshot_core (db : DB) (g u : ℤ) (a : ℚ) (un gn : Option String) (now : ℤ)
    (hreach : (∀ x ∈ db.user_xp, ¬(x.guild_id = g ∧ x.user_id = u)) →
      ∀ m ∈ db.message_logs, ¬(m.guild_id = g ∧ m.user_id = u)) :
    (∃ x ∈ (award_xp db g u a un gn now).user_xp, x.guild_id = g ∧ x.user_id = u) ∧
    (∀ x ∈ (award_xp db g u a un gn now).user_xp, x.guild_id = g → x.user_id = u →
      x.xp = round3 (ledgerSum (award_xp db g u a un gn now).message_logs g u (now - 3 * 86400))) ∧
    ((∃ x ∈ db.user_xp, x.guild_id = g ∧ x.user_id = u) →
      (award_xp db g u a un gn now).user_xp.length = db.user_xp.length) ∧
    ((∀ x ∈ db.user_xp, ¬(x.guild_id = g ∧ x.user_id = u)) →
      (award_xp db g u a un gn now).user_xp =
        db.user_xp ++ [UserXpRow.mk g u (round3 a) now]) := by
  have hcut : now - 3 * 86400 = now - 259200 := by norm_num
  rw [award_xp_message_logs, hcut]
  unfold award_xp
  dsimp only
  simp only [ensureUser_user_xp, ensureGuild_user_xp, ensureUser_message_logs,
    ensureGuild_message_logs]
  by_cases hany : (db.user_xp.any fun r => r.guild_id == g && r.user_id == u) = true
  · rw [if_pos hany]
    dsimp only
    obtain ⟨x0, hx0, hkey⟩ := List.any_eq_true.1 hany
    simp only [Bool.and_eq_true, beq_iff_eq] at hkey
    refine ⟨?_, ?_, ?_, ?_⟩
    · exact ⟨_, List.mem_map_of_mem _ hx0, by simp [hkey.1, hkey.2]⟩
    · intro x hx hxg hxu
      obtain ⟨y, hy, rfl⟩ := List.mem_map.1 hx
      by_cases hp : (y.guild_id == g && y.user_id == u) = true
      · rw [if_pos hp]
        dsimp only
        rw [filter_sum_eq_ledgerSum]
      · rw [if_neg hp] at hxg hxu ⊢
        simp only [Bool.and_eq_true, beq_iff_eq] at hp
        exact absurd ⟨hxg, hxu⟩ hp
    · intro _
      simp
    · intro hnone
      exact absurd ⟨hkey.1, hkey.2⟩ (hnone x0 hx0)
  · rw [if_neg hany]
    dsimp only
    have hnomatch : ∀ x ∈ db.user_xp, ¬(x.guild_id = g ∧ x.user_id = u) := by
      intro x hx hc
      exact hany (List.any_eq_true.2 ⟨x, hx, by simp [hc.1, hc.2]⟩)
    have hlogs0 := hreach hnomatch
    refine ⟨?_, ?_, ?_, ?_⟩
    · refine ⟨UserXpRow.mk g u (round3 (round3 a)) now, ?_, rfl, rfl⟩
      simp
    · intro x hx hxg hxu
      rcases List.mem_append.1 hx with hx | hx
      · exact absurd ⟨hxg, hxu⟩ (hnomatch x hx)
      · simp only [List.mem_singleton] at hx
        subst hx
        rw [ledgerSum_append, ledgerSum_eq_zero db.message_logs _ _ _ hlogs0, zero_add]
        unfold ledgerSum
        simp only [List.map_cons, List.map_nil, List.sum_cons, List.sum_nil, add_zero]
        have hcond : True ∧ True ∧ now - 259200 ≤ now := ⟨trivial, trivial, by omega⟩
        rw [if_pos hcond]
    · rintro ⟨x, hx, hc⟩
      exact absurd hc (hnomatch x hx)
    · intro _
      rw [round3_idem]

/-- C4: after an award the snapshot row of the pair holds the 3-decimal
rounding of the sum of the pair's ledger entries in the fixed trailing 3-day
window (`award_xp` takes no window argument, so no caller can vary it), and
the snapshot is upserted: updated in place when a row exists, inserted
otherwise.  The hypothesis is the reachability invariant `XpInv` of the
store — a pair with ledger entries has a snapshot row — which `award_xp`,
the only ledger writer, maintains (`award_xp_preserves_inv`); on the insert
path the code stores only the new award, which equals the window sum exactly
when the invariant holds. -/
theorem snapshot_after_award (db : DB) (g u : ℤ) (a : ℚ) (un gn : Option String) (now : ℤ)
    (hreach : (∀ x ∈ db.user_xp, ¬(x.guild_id = g ∧ x.user_id = u)) →
      ∀ m ∈ db.message_logs, ¬(m.guild_id = g ∧ m.user_id = u)) :
    (∃ x ∈ (award_xp db g u a un gn now).user_xp, x.guild_id = g ∧ x.user_id = u) ∧
    (∀ x ∈ (award_xp db g u a un gn now).user_xp, x.guild_id = g → x.user_id = u →
      x.xp = round3 (ledgerSum (award_xp db g u a un gn now).message_logs g u (now - 3 * 86400))) ∧
    ((∃ x ∈ db.user_xp, x.guild_id = g ∧ x.user_id = u) →
      (award_xp db g u a un gn now).user_xp.length = db.user_xp.length) ∧
    ((∀ x ∈ db.user_xp, ¬(x.guild_id = g ∧ x.user_id = u)) →
      (award_xp db g u a un gn now).user_xp =
        db.user_xp ++ [UserXpRow.mk g u (round3 a) now]) :=
  award_xp_snapshot_core db g u a un gn now hreach

theorem award_xp_user_xp_keys (db : DB) (g u : ℤ) (a : ℚ) (un gn : Option String) (now : ℤ) :
    ∀ x ∈ db.user_xp, ∃ x' ∈ (award_xp db g u a un gn now).user_xp,
      x'.guild_id = x.guild_id ∧ x'.user_id = x.user_id := by
  intro x hx
  unfold award_xp
  dsimp only
  simp only [ensureUser_user_xp, ensureGuild_user_xp]
  split
  · refine ⟨_, List.mem_map_of_mem _ hx, ?_⟩
    by_cases hp : (x.guild_id == g && x.user_id == u) = true
    · rw [if_pos hp]
      simp only [Bool.and_eq_true, beq_iff_eq] at hp
      exact ⟨hp.1.symm ▸ hp.1, hp.2.symm ▸ hp.2⟩
    · rw [if_neg hp]
      exact ⟨rfl, rfl⟩
  · exact ⟨x, List.mem_append_left _ hx, rfl, rfl⟩

/-- The XP engine maintains `XpInv`: if every pair with ledger entries had a
snapshot row before an award, the same holds after it.  Together with the
fact that the empty store satisfies the invariant and that `award_xp` is the
only ledger writer, this discharges the hypothesis of C4 on every reachable
store. -/
theorem award_xp_preserves_inv (db : DB) (g u : ℤ) (a : ℚ) (un gn : Option String) (now : ℤ)
    (hinv : XpInv db) : XpInv (award_xp db g u a un gn now) := by
  have hreach : (∀ x ∈ db.user_xp, ¬(x.guild_id = g ∧ x.user_id = u)) →
      ∀ m ∈ db.message_logs, ¬(m.guild_id = g ∧ m.user_id = u) := by
    intro hnone m hm hk
    obtain ⟨x, hx, hkk⟩ := hinv g u ⟨m, hm, hk⟩
    exact hnone x hx hkk
  have core := award_xp_snapshot_core db g u a un gn now hreach
  intro g' u' hm'
  obtain ⟨m, hm, hk⟩ := hm'
  rw [award_xp_message_logs] at hm
  rcases List.mem_append.1 hm with hold | hnew
  · obtain ⟨x, hx, hxg, hxu⟩ := hinv g' u' ⟨m, hold, hk⟩
    obtain ⟨x', hx', hg', hu'⟩ := award_xp_user_xp_keys db g u a un gn now x hx
    exact ⟨x', hx', hg'.trans hxg, hu'.trans hxu⟩
  · simp only [List.mem_singleton] at hnew
    subst hnew
    obtain ⟨hg', hu'⟩ := hk
    dsimp only at hg' hu'
    subst hg'
    subst hu'
    exact core.1

/-- C4, witness: the first award ever for (guild 1, user 2) on the empty
store; the reachability hypothesis holds vacuously and the inserted snapshot
equals the rounded 3-day window sum. -/
theorem snapshot_after_award_witness :
    (∃ x ∈ (award_xp DB.empty 1 2 7 none none 0).user_xp, x.guild_id = 1 ∧ x.user_id = 2) ∧
    (∀ x ∈ (award_xp DB.empty 1 2 7 none none 0).user_xp, x.guild_id = 1 → x.user_id = 2 →
      x.xp = round3 (ledgerSum (award_xp DB.empty 1 2 7 none none 0).message_logs 1 2
        ((0 : ℤ) - 3 * 86400))) ∧
    ((∃ x ∈ DB.empty.user_xp, x.guild_id = 1 ∧ x.user_id = 2) →
      (award_xp DB.empty 1 2 7 none none 0).user_xp.length = DB.empty.user_xp.length) ∧
    ((∀ x ∈ DB.empty.user_xp, ¬(x.guild_id = 1 ∧ x.user_id = 2)) →
      (award_xp DB.empty 1 2 7 none none 0).user_xp =
        DB.empty.user_xp ++ [UserXpRow.mk 1 2 (round3 7) 0]) :=
  snapshot_after_award DB.empty 1 2 7 none none 0 (fun _ => by simp [DB.empty])

/-- C5: `get_user_xp` returns the 3-decimal rounding of the sum of the
pair's ledger entries in the caller-supplied trailing `days` window; it
depends only on the ledger (never on the snapshot), and on `dbDiverge` —
a store whose snapshot is consistent for the 3-day window — the 1-day query
returns 0 while the snapshot holds 5, exhibiting the divergence. -/
theorem get_user_xp_spec :
    (∀ (db : DB) (g u days now : ℤ),
       (get_user_xp db g u days now = round3 (ledgerSum db.message_logs g u (now - days * 86400)))
     ∧ ∀ db2 : DB, db2.message_logs = db.message_logs →
         get_user_xp db2 g u days now = get_user_xp db g u days now)
  ∧ get_user_xp dbDiverge 1 2 1 0 = 0
  ∧ dbDiverge.user_xp.map (fun x => x.xp) = [5] := by
  refine ⟨fun db g u days now => ⟨?_, ?_⟩, ?_, rfl⟩
  · unfold get_user_xp
    dsimp only
    rw [filter_sum_eq_ledgerSum]
  · intro db2 h
    unfold get_user_xp
    rw [h]
  · unfold get_user_xp dbDiverge DB.empty
    dsimp only
    rw [List.filter_cons_of_neg (by decide)]
    exact round3_zero

/-- C5, witness: a concrete query on the empty store equals the rounded
window sum, and a store differing only outside the ledger returns the same
value. -/
theorem get_user_xp_spec_witness :
    get_user_xp DB.empty 1 2 3 0 = round3 (ledgerSum DB.empty.message_logs 1 2 (0 - 3 * 86400)) ∧
    get_user_xp (DB.mk [] [] [] [] [UserXpRow.mk 9 9 1 0] []) 1 2 3 0 =
      get_user_xp DB.empty 1 2 3 0 := by
  constructor
  · exact (get_user_xp_spec.1 DB.empty 1 2 3 0).1
  · exact (get_user_xp_spec.1 DB.empty 1 2 3 0).2 (DB.mk [] [] [] [] [UserXpRow.mk 9 9 1 0] []) rfl

/-- C8: `get_active_users` returns exactly the user ids of the guild's
personal-channel rows whose last-activity timestamp is present (non-NULL)
and within the trailing `days` window — stated as an order-independent
membership equivalence — and, when the table satisfies its (guild, user)
primary key, the returned list has no duplicates, so it denotes a set.  The
operation takes the store and returns only the id list: it writes nothing. -/
theorem get_active_users_spec :
    (∀ (db : DB) (g days now u : ℤ),
       u ∈ get_active_users db g days now ↔
         ∃ row ∈ db.user_private_channels, row.guild_id = g ∧ row.user_id = u ∧
           ∃ t, row.last_journal_message = some t ∧ now - days * 86400 ≤ t)
  ∧ (∀ (db : DB) (g days now : ℤ),
       db.user_private_channels.Pairwise
         (fun r1 r2 => ¬(r1.guild_id = r2.guild_id ∧ r1.user_id = r2.user_id)) →
       (get_active_users db g days now).Nodup) := by
  constructor
  · intro db g days now u
    unfold get_active_users
    simp only [List.mem_map, List.mem_filter]
    constructor
    · rintro ⟨row, ⟨hrow, hpred⟩, rfl⟩
      simp only [Bool.and_eq_true, beq_iff_eq] at hpred
      obtain ⟨hg, hmatch⟩ := hpred
      cases hlj : row.last_journal_message with
      | none =>
        rw [hlj] at hmatch
        exact absurd hmatch (by simp)
      | some t =>
        rw [hlj] at hmatch
        simp only [decide_eq_true_eq] at hmatch
        exact ⟨row, hrow, hg, rfl, t, hlj, hmatch⟩
    · rintro ⟨row, hrow, hg, hu, t, hlj, ht⟩
      refine ⟨row, ⟨hrow, ?_⟩, hu⟩
      simp only [Bool.and_eq_true, beq_iff_eq]
      refine ⟨hg, ?_⟩
      rw [hlj]
      simpa using ht
  · intro db g days now hpk
    unfold get_active_users
    have h2 : (db.user_private_channels.filter (fun r =>
        r.guild_id == g &&
          match r.last_journal_message with
          | some t => decide (now - days * 86400 ≤ t)
          | none => false)).Pairwise (fun r1 r2 => r1.user_id ≠ r2.user_id) := by
      refine List.Pairwise.imp_of_mem ?_ (hpk.sublist (List.filter_sublist _))
      intro a b ha hb hR huser
      have hag : a.guild_id = g := by
        have := (List.mem_filter.1 ha).2
        simp only [Bool.and_eq_true, beq_iff_eq] at this
        exact this.1
      have hbg : b.guild_id = g := by
        have := (List.mem_filter.1 hb).2
        simp only [Bool.and_eq_true, beq_iff_eq] at this
        exact this.1
      exact hR ⟨hag.trans hbg.symm, huser⟩
    exact h2.map _ (fun a b h => h)

/-- C8, witness: a guild with one active row (timestamp in window) and one
row with a NULL timestamp; user 2 is listed, and the output has no
duplicates under the primary key. -/
theorem get_active_users_spec_witness :
    (2 : ℤ) ∈ get_active_users
        (DB.mk [] [] [ChannelRow.mk 1 2 10 (some 0), ChannelRow.mk 1 3 11 none] [] [] [])
        1 3 0 ∧
    (get_active_users
        (DB.mk [] [] [ChannelRow.mk 1 2 10 (some 0), ChannelRow.mk 1 3 11 none] [] [] [])
        1 3 0).Nodup := by
  constructor
  · exact (get_active_users_spec.1
      (DB.mk [] [] [ChannelRow.mk 1 2 10 (some 0), ChannelRow.mk 1 3 11 none] [] [] []) 1 3 0 2).mpr
      ⟨ChannelRow.mk 1 2 10 (some 0), by simp, rfl, rfl, 0, rfl, by omega⟩
  · exact get_active_users_spec.2
      (DB.mk [] [] [ChannelRow.mk 1 2 10 (some 0), ChannelRow.mk 1 3 11 none] [] [] []) 1 3 0
      (by decide)

theorem ensureUser_mem_self (db : DB) (u : ℤ) (n : Option String) :
    ∃ x ∈ (ensureUser db u n).users, x.user_id = u := by
  unfold ensureUser
  by_cases h : (db.users.any fun r => r.user_id == u) = true
  · rw [if_pos h]
    obtain ⟨x, hx, hxu⟩ := List.any_eq_true.1 h
    exact ⟨x, hx, by simpa using hxu⟩
  · rw [if_neg h]
    refine ⟨UserRow.mk u n, ?_, rfl⟩
    simp

theorem ensureGuild_mem_self (db : DB) (g : ℤ) (n : Option String) :
    ∃ x ∈ (ensureGuild db g n).guilds, x.guild_id = g := by
  unfold ensureGuild
  by_cases h : (db.guilds.any fun r => r.guild_id == g) = true
  · rw [if_pos h]
    obtain ⟨x, hx, hxg⟩ := List.any_eq_true.1 h
    exact ⟨x, hx, by simpa using hxg⟩
  · rw [if_neg h]
    refine ⟨GuildRow.mk g n, ?_, rfl⟩
    simp

theorem ensureUser_mem_mono (db : DB) (u : ℤ) (n : Option String) (x : UserRow)
    (hx : x ∈ db.users) : x ∈ (ensureUser db u n).users := by
  unfold ensureUser
  split
  · exact hx
  · exact List.mem_append_left _ hx

theorem ensureGuild_mem_mono (db : DB) (g : ℤ) (n : Option String) (x : GuildRow)
    (hx : x ∈ db.guilds) : x ∈ (ensureGuild db g n).guilds := by
  unfold ensureGuild
  split
  · exact hx
  · exact List.mem_append_left _ hx

theorem award_xp_users (db : DB) (g u : ℤ) (a : ℚ) (un gn : Option String) (now : ℤ) :
    (award_xp db g u a un gn now).users = (ensureGuild (ensureUser db u un) g gn).users := by
  unfold award_xp
  dsimp only
  split <;> rfl

theorem award_xp_guilds (db : DB) (g u : ℤ) (a : ℚ) (un gn : Option String) (now : ℤ) :
    (award_xp db g u a un gn now).guilds = (ensureGuild (ensureUser db u un) g gn).guilds := by
  unfold award_xp
  dsimp only
  split <;> rfl

/-- C9: `can_award_xp` is not a pure read — on the empty store it inserts a
user row, changing the store — and after either `can_award_xp` or `award_xp`
the referenced users and guilds rows exist; both operations preserve every
pre-existing users and guilds row. -/
theorem ensure_rows_spec :
    (∀ (db : DB) (g u now : ℤ) (a : ℚ) (un gn : Option String),
      (∃ x ∈ ((can_award_xp db g u now).2).users, x.user_id = u) ∧
      (∃ x ∈ ((can_award_xp db g u now).2).guilds, x.guild_id = g) ∧
      (∀ x ∈ db.users, x ∈ ((can_award_xp db g u now).2).users) ∧
      (∀ x ∈ db.guilds, x ∈ ((can_award_xp db g u now).2).guilds) ∧
      (∃ x ∈ (award_xp db g u a un gn now).users, x.user_id = u) ∧
      (∃ x ∈ (award_xp db g u a un gn now).guilds, x.guild_id = g) ∧
      (∀ x ∈ db.users, x ∈ (award_xp db g u a un gn now).users) ∧
      (∀ x ∈ db.guilds, x ∈ (award_xp db g u a un gn now).guilds))
  ∧ (can_award_xp DB.empty 1 2 0).2 ≠ DB.empty := by
  constructor
  · intro db g u now a un gn
    refine ⟨?_, ?_, ?_, ?_, ?_, ?_, ?_, ?_⟩
    · rw [can_award_xp_snd]
      obtain ⟨x, hx, hxu⟩ := ensureUser_mem_self db u none
      exact ⟨x, by rw [ensureGuild_users]; exact hx, hxu⟩
    · rw [can_award_xp_snd]
      exact ensureGuild_mem_self (ensureUser db u none) g none
    · intro x hx
      rw [can_award_xp_snd, ensureGuild_users]
      exact ensureUser_mem_mono db u none x hx
    · intro x hx
      rw [can_award_xp_snd]
      exact ensureGuild_mem_mono (ensureUser db u none) g none x
        (by rw [ensureUser_guilds]; exact hx)
    · rw [award_xp_users, ensureGuild_users]
      exact ensureUser_mem_self db u un
    · rw [award_xp_guilds]
      exact ensureGuild_mem_self (ensureUser db u un) g gn
    · intro x hx
      rw [award_xp_users, ensureGuild_users]
      exact ensureUser_mem_mono db u un x hx
    · intro x hx
      rw [award_xp_guilds]
      exact ensureGuild_mem_mono (ensureUser db u un) g gn x
        (by rw [ensureUser_guilds]; exact hx)
  · decide

/-- C9, witness: on the empty store, the cooldown check creates the user row
and the award creates the guild row. -/
theorem ensure_rows_spec_witness :
    (∃ x ∈ ((can_award_xp DB.empty 1 2 0).2).users, x.user_id = 2) ∧
    (∃ x ∈ (award_xp DB.empty 1 2 7 none none 0).guilds, x.guild_id = 1) :=
  ⟨(ensure_rows_spec.1 DB.empty 1 2 0 7 none none).1,
    (ensure_rows_spec.1 DB.empty 1 2 0 7 none none).2.2.2.2.2.1⟩

theorem mark_completed_sets (db : DB) (i : ℤ) :
    ∀ q ∈ (mark_reminder_completed db i).reminders, q.id = i → q.completed = true := by
  intro q hq hid
  unfold mark_reminder_completed at hq
  dsimp only at hq
  obtain ⟨y, hy, rfl⟩ := List.mem_map.1 hq
  by_cases hp : (y.id == i) = true
  · rw [if_pos hp]
  · rw [if_neg hp] at hid ⊢
    exact absurd (by simp [hid]) hp

/-- C2: delivery outcomes of a due reminder.  An unresolvable guild, an
unresolvable channel, or a permission denial marks the reminder Completed
with nothing delivered; a successful send delivers the content and marks
Completed; a transient send failure leaves the store untouched (the
reminder stays Pending); a Completed reminder is never selected by the due
query on any later cycle, while a Pending one whose fire time has passed
always is — so the transient case is retried on the next cycle. -/
theorem reminder_delivery_policy :
    (∀ (env : Env) (db : DB) (r : ReminderRow),
      (env.guildExists r.guild_id = false →
        (send_reminder env db r).2 = none ∧
        ∀ q ∈ (send_reminder env db r).1.reminders, q.id = r.id → q.completed = true) ∧
      (env.guildExists r.guild_id = true → env.channelExists r.guild_id r.channel_id = false →
        (send_reminder env db r).2 = none ∧
        ∀ q ∈ (send_reminder env db r).1.reminders, q.id = r.id → q.completed = true) ∧
      (env.guildExists r.guild_id = true → env.channelExists r.guild_id r.channel_id = true →
        env.sendOutcome r.channel_id (reminder_content r) = SendResult.forbidden →
        (send_reminder env db r).2 = none ∧
        ∀ q ∈ (send_reminder env db r).1.reminders, q.id = r.id → q.completed = true) ∧
      (env.guildExists r.guild_id = true → env.channelExists r.guild_id r.channel_id = true →
        env.sendOutcome r.channel_id (reminder_content r) = SendResult.success →
        (send_reminder env db r).2 = some (reminder_content r) ∧
        ∀ q ∈ (send_reminder env db r).1.reminders, q.id = r.id → q.completed = true) ∧
      (env.guildExists r.guild_id = true → env.channelExists r.guild_id r.channel_id = true →
        env.sendOutcome r.channel_id (reminder_content r) = SendResult.httpError →
        send_reminder env db r = (db, none)))
  ∧ (∀ (db : DB) (now : ℤ) (q : ReminderRow), q.completed = true → q ∉ get_due_reminders db now)
  ∧ (∀ (db : DB) (now : ℤ) (q : ReminderRow), q ∈ db.reminders → q.completed = false →
      q.remind_at ≤ now → q ∈ get_due_reminders db now) := by
  refine ⟨?_, ?_, ?_⟩
  · intro env db r
    refine ⟨?_, ?_, ?_, ?_, ?_⟩
    · intro hng
      unfold send_reminder
      rw [hng]
      exact ⟨rfl, mark_completed_sets db r.id⟩
    · intro hg hnc
      unfold send_reminder
      rw [hg, hnc]
      exact ⟨rfl, mark_completed_sets db r.id⟩
    · intro hg hc hout
      unfold send_reminder
      rw [hg, hc]
      dsimp only
      rw [hout]
      exact ⟨rfl, mark_completed_sets db r.id⟩
    · intro hg hc hout
      unfold send_reminder
      rw [hg, hc]
      dsimp only
      rw [hout]
      exact ⟨rfl, mark_completed_sets db r.id⟩
    · intro hg hc hout
      unfold send_reminder
      rw [hg, hc]
      dsimp only
      rw [hout]
      rfl
  · intro db now q hc hq
    unfold get_due_reminders at hq
    have := (List.mem_filter.1 hq).2
    rw [hc] at this
    simp at this
  · intro db now q hq hc hle
    unfold get_due_reminders
    rw [List.mem_filter]
    exact ⟨hq, by simp [hc, hle]⟩

/-- C2, witness: with a platform that resolves everything and accepts the
send, the reminder is delivered and every row with its id is Completed; a
Completed copy of the row is not selected as due. -/
theorem reminder_delivery_policy_witness :
    ((send_reminder (Env.mk (fun _ => true) (fun _ _ => true) (fun _ _ => SendResult.success))
        (DB.mk [] [] [] [] [] [ReminderRow.mk 1 1 2 3 "L" none 0 false])
        (ReminderRow.mk 1 1 2 3 "L" none 0 false)).2 =
      some (reminder_content (ReminderRow.mk 1 1 2 3 "L" none 0 false))) ∧
    (∀ q ∈ (send_reminder (Env.mk (fun _ => true) (fun _ _ => true) (fun _ _ => SendResult.success))
        (DB.mk [] [] [] [] [] [ReminderRow.mk 1 1 2 3 "L" none 0 false])
        (ReminderRow.mk 1 1 2 3 "L" none 0 false)).1.reminders,
      q.id = 1 → q.completed = true) ∧
    (ReminderRow.mk 1 1 2 3 "L" none 0 true) ∉
      get_due_reminders (DB.mk [] [] [] [] [] [ReminderRow.mk 1 1 2 3 "L" none 0 true]) 5 := by
  have h := (reminder_delivery_policy.1
    (Env.mk (fun _ => true) (fun _ _ => true) (fun _ _ => SendResult.success))
    (DB.mk [] [] [] [] [] [ReminderRow.mk 1 1 2 3 "L" none 0 false])
    (ReminderRow.mk 1 1 2 3 "L" none 0 false)).2.2.2.1 rfl rfl rfl
  exact ⟨h.1, h.2, reminder_delivery_policy.2.1
    (DB.mk [] [] [] [] [] [ReminderRow.mk 1 1 2 3 "L" none 0 true]) 5
    (ReminderRow.mk 1 1 2 3 "L" none 0 true) rfl⟩

theorem string_append_assoc (a b c : String) : (a ++ b) ++ c = a ++ (b ++ c) := by
  cases a with | mk xa =>
  cases b with | mk xb =>
  cases c with | mk xc =>
  show String.mk ((xa ++ xb) ++ xc) = String.mk (xa ++ (xb ++ xc))
  rw [List.append_assoc]

theorem string_length_append (a b : String) : (a ++ b).length = a.length + b.length := by
  cases a with | mk xa =>
  cases b with | mk xb =>
  show (xa ++ xb).length = xa.length + xb.length
  rw [List.length_append]

/-- C10: in the delivered content, the quoted preview is the stored preview
itself when it has at most 200 characters, and exactly its first 200
characters followed by `"..."` (203 characters in all) when longer. -/
theorem reminder_preview_truncation (r : ReminderRow) (p : String)
    (hp : r.message_preview = some p) (hne : p ≠ "") :
    ∃ q : String,
      reminder_content r =
        ("🔔 **Reminder** <@" ++ toString r.user_id ++ ">\n\n" ++ ("> " ++ (q ++ "\n\n"))) ++
          ("[Original message](" ++ (r.message_link ++ ")")) ∧
      (200 < p.length → q = String.mk (p.data.take 200) ++ "..." ∧ q.length = 203) ∧
      (p.length ≤ 200 → q = p) := by
  have hlen : (p.length != 0) = true := by
    simp only [bne_iff_ne, ne_eq]
    intro h0
    exact hne (String.ext (List.eq_nil_of_length_eq_zero h0))
  unfold reminder_content
  rw [hp]
  dsimp only
  rw [if_pos hlen]
  by_cases h200 : 200 < p.length
  · refine ⟨String.mk (p.data.take 200) ++ "...", ?_, fun _ => ⟨rfl, ?_⟩,
      fun hle => absurd h200 (by omega)⟩
    · rw [if_pos h200]
      simp only [string_append_assoc]
    · rw [string_length_append]
      have ht : (String.mk (p.data.take 200)).length = 200 := by
        show (p.data.take 200).length = 200
        rw [List.length_take]
        exact min_eq_left (Nat.le_of_lt h200)
      rw [ht]
      rfl
  · refine ⟨p, ?_, fun hgt => absurd hgt h200, fun _ => rfl⟩
    rw [if_neg h200]
    simp only [string_append_assoc]

/-- C10, witness: a stored preview of 201 repeated characters is quoted as
its first 200 characters plus the ellipsis. -/
theorem reminder_preview_truncation_witness :
    (200 < (String.mk (List.replicate 201 'a')).length) ∧
    ∃ q : String,
      reminder_content
          (ReminderRow.mk 1 1 2 3 "L" (some (String.mk (List.replicate 201 'a'))) 0 false) =
        ("🔔 **Reminder** <@" ++ toString (2 : ℤ) ++ ">\n\n" ++ ("> " ++ (q ++ "\n\n"))) ++
          ("[Original message](" ++ ("L" ++ ")")) ∧
      (200 < (String.mk (List.replicate 201 'a')).length →
        q = String.mk ((String.mk (List.replicate 201 'a')).data.take 200) ++ "..." ∧
          q.length = 203) ∧
      ((String.mk (List.replicate 201 'a')).length ≤ 200 →
        q = String.mk (List.replicate 201 'a')) := by
  have h201 : (String.mk (List.replicate 201 'a')).length = 201 := by
    show (List.replicate 201 'a').length = 201
    rw [List.length_replicate]
  refine ⟨by rw [h201]; omega, ?_⟩
  refine reminder_preview_truncation
    (ReminderRow.mk 1 1 2 3 "L" (some (String.mk (List.replicate 201 'a'))) 0 false)
    (String.mk (List.replicate 201 'a')) rfl ?_
  intro h
  have := congrArg (fun s => s.data.length) h
  simp only [List.length_replicate] at this
  simp at this

end CommunityBot
